import Mathlib

/-!
Verification of the note-decryption and proof-aggregation core:
a shallow embedding of the Merkle accumulator (imt.ts), the note
decryptor (decrypt.ts) and the proof-tree aggregation engine
(proof-tree module) into Lean, with theorems checking the
natural-language specification against the code.

Bytes are modelled as natural numbers, field elements of the BN254
scalar field as natural numbers, and the external cryptographic
primitives (poseidon2 hashes, AES-CBC, curve operations) as explicit
function parameters, since the specification treats them as opaque
collaborators.
-/

namespace Imt

/-- Field elements, modelled abstractly: every definition takes the
hash primitives it needs as parameters. -/
abbrev Fr := Nat

/-- The additive identity of the field (Fr.ZERO in the source). -/
def Fr.ZERO : Fr := 0

/-- Node buffer semantics of Buffer.alloc(len) followed by
src.copy(dst, 0, 0, min(src.length, len)): the first min(src.length, len)
bytes of src, then zeros up to length len. -/
def padTo (len : Nat) (src : List Nat) : List Nat :=
  src.take len ++ List.replicate (len - src.length) 0

/-- The i-th 32-byte chunk of a buffer, namely bytes 32*i .. 32*i+31
(buffer.slice(i*32, (i+1)*32)). -/
def chunkAt (b : List Nat) (i : Nat) : List Nat :=
  (b.drop (i * 32)).take 32

/-- hashCiphertextToLeaf from imt.ts: skip the 32-byte tag, copy the
remainder into a zeroed 17*32-byte buffer, read 17 fields of 32 bytes
each, and hash them with separator 0.  frFromBuffer models
Fr.fromBuffer and hashWithSeparator models poseidon2HashWithSeparator. -/
def hashCiphertextToLeaf (frFromBuffer : List Nat → Fr)
    (hashWithSeparator : List Fr → Nat → Fr) (ciphertext : List Nat) : Fr :=
  let ciphertextWithoutTag := ciphertext.drop 32
  let paddedBuffer := padTo (17 * 32) ciphertextWithoutTag
  let fields := (List.range 17).map (fun i => frFromBuffer (chunkAt paddedBuffer i))
  hashWithSeparator fields 0

/-- One pass of the pairing loop inside buildIMT: hash adjacent pairs
of the current level.  The loop in the source is only ever run on
levels of even length (the leaves are padded to a power of two), so the
fallthrough case is only reached on the empty list. -/
def hashLevel (hash2 : Fr → Fr → Fr) : List Fr → List Fr
  | [] => []
  | [a] => [a]
  | a :: b :: rest => hash2 a b :: hashLevel hash2 rest

theorem hashLevel_length (hash2 : Fr → Fr → Fr) :
    ∀ l : List Fr, (hashLevel hash2 l).length = (l.length + 1) / 2
  | [] => by simp [hashLevel]
  | [_] => by simp [hashLevel]
  | _ :: _ :: rest => by
    simp only [hashLevel, List.length_cons, hashLevel_length hash2 rest]
    omega

/-- The while loop of buildIMT: repeatedly hash adjacent pairs until a
single element remains and return it (currentLevel[0]). -/
def buildLevels (hash2 : Fr → Fr → Fr) (l : List Fr) : Fr :=
  if _h : l.length ≤ 1 then l.headD Fr.ZERO
  else buildLevels hash2 (hashLevel hash2 l)
termination_by l.length
decreasing_by
  rw [hashLevel_length]
  omega

/-- buildIMT from imt.ts: an empty leaf list yields Fr.ZERO; otherwise
pad the leaves on the right with Fr.ZERO up to the next power of two
(Math.pow(2, Math.ceil(Math.log2(n))), written with Nat.clog) and hash
adjacent pairs level by level until one element remains. -/
def buildIMT (hash2 : Fr → Fr → Fr) (leaves : List Fr) : Fr :=
  if leaves.length = 0 then Fr.ZERO
  else
    let nextPow2 := 2 ^ Nat.clog 2 leaves.length
    let paddedLeaves := leaves ++ List.replicate (nextPow2 - leaves.length) Fr.ZERO
    buildLevels hash2 paddedLeaves

/-- buildIMTFromCiphertexts from imt.ts: hash each ciphertext to a
leaf, then build the tree. -/
def buildIMTFromCiphertexts (frFromBuffer : List Nat → Fr)
    (hashWithSeparator : List Fr → Nat → Fr) (hash2 : Fr → Fr → Fr)
    (ciphertexts : List (List Nat)) : Fr :=
  buildIMT hash2 (ciphertexts.map (hashCiphertextToLeaf frFromBuffer hashWithSeparator))

/-- The zero hash of one tree depth: depth 0 is the additive identity
and each further depth hashes two copies of the previous one.  Used to
state what the table built by computeZeroHashes contains. -/
def specZeroHash (hash2 : Fr → Fr → Fr) : Nat → Fr
  | 0 => Fr.ZERO
  | d + 1 => hash2 (specZeroHash hash2 d) (specZeroHash hash2 d)

/-- computeZeroHashes from imt.ts: start from [Fr.ZERO] and, for i from
1 to maxDepth, push the hash of two copies of entry i-1.  The fold runs
over j = 0 .. maxDepth-1 standing for loop index i = j+1, so the entry
read is zeroHashes[j]. -/
def computeZeroHashes (hash2 : Fr → Fr → Fr) (maxDepth : Nat) : List Fr :=
  (List.range maxDepth).foldl
    (fun zeroHashes j =>
      let prev := zeroHashes.getD j Fr.ZERO
      zeroHashes ++ [hash2 prev prev])
    [Fr.ZERO]

/-- Number of two-argument hash evaluations computeZeroHashes performs:
one per loop iteration, so maxDepth in total (depths 1 .. maxDepth are
each computed, starting over from depth 0 regardless of any cache). -/
def computeZeroHashesCost (maxDepth : Nat) : Nat := maxDepth

/-- The module-level cache of imt.ts: cachedZeroHashes (null at start)
and cachedMaxDepth (0 at start). -/
structure ZeroHashCache where
  cachedZeroHashes : Option (List Fr)
  cachedMaxDepth : Nat
deriving DecidableEq

/-- The state of the cache when the module is loaded. -/
def initialCache : ZeroHashCache := ⟨none, 0⟩

/-- getZeroHashes from imt.ts: serve a slice of the cache when it is
populated and deep enough, else recompute the full table with
computeZeroHashes and overwrite the cache. -/
def getZeroHashes (hash2 : Fr → Fr → Fr) (st : ZeroHashCache) (maxDepth : Nat) :
    List Fr × ZeroHashCache :=
  match st.cachedZeroHashes with
  | some zh =>
    if maxDepth ≤ st.cachedMaxDepth then (zh.take (maxDepth + 1), st)
    else
      let zh2 := computeZeroHashes hash2 maxDepth
      (zh2, ⟨some zh2, maxDepth⟩)
  | none =>
    let zh2 := computeZeroHashes hash2 maxDepth
    (zh2, ⟨some zh2, maxDepth⟩)

/-- Number of two-argument hash evaluations a getZeroHashes call
performs: zero when served from the cache, otherwise the full cost of
computeZeroHashes. -/
def getZeroHashesCost (st : ZeroHashCache) (maxDepth : Nat) : Nat :=
  match st.cachedZeroHashes with
  | some _ => if maxDepth ≤ st.cachedMaxDepth then 0 else computeZeroHashesCost maxDepth
  | none => computeZeroHashesCost maxDepth

/-- The cache states reachable by sequences of getZeroHashes calls:
either untouched, or holding exactly the table computeZeroHashes builds
for the recorded depth. -/
def ValidCache (hash2 : Fr → Fr → Fr) (st : ZeroHashCache) : Prop :=
  st = initialCache ∨ ∃ n, st = ⟨some (computeZeroHashes hash2 n), n⟩

theorem computeZeroHashes_eq_map (hash2 : Fr → Fr → Fr) (n : Nat) :
    computeZeroHashes hash2 n = (List.range (n + 1)).map (specZeroHash hash2) := by
  induction n with
  | zero => rfl
  | succ n ih =>
    have hstep : computeZeroHashes hash2 (n + 1) =
        computeZeroHashes hash2 n ++
          [hash2 ((computeZeroHashes hash2 n).getD n Fr.ZERO)
                 ((computeZeroHashes hash2 n).getD n Fr.ZERO)] := by
      unfold computeZeroHashes
      rw [List.range_succ, List.foldl_append]
      rfl
    have hget : (computeZeroHashes hash2 n).getD n Fr.ZERO = specZeroHash hash2 n := by
      rw [ih, List.getD_eq_getElem?_getD, List.getElem?_map]
      simp [List.getElem?_range, Nat.lt_succ_self]
    rw [hstep, hget, ih, List.range_succ (n := n + 1), List.map_append]
    rfl

theorem computeZeroHashes_length (hash2 : Fr → Fr → Fr) (n : Nat) :
    (computeZeroHashes hash2 n).length = n + 1 := by
  rw [computeZeroHashes_eq_map]
  simp

theorem computeZeroHashes_getD (hash2 : Fr → Fr → Fr) (n d : Nat) (hd : d ≤ n) :
    (computeZeroHashes hash2 n).getD d Fr.ZERO = specZeroHash hash2 d := by
  rw [computeZeroHashes_eq_map, List.getD_eq_getElem?_getD, List.getElem?_map]
  simp [List.getElem?_range, Nat.lt_succ_of_le hd]

theorem buildLevels_singleton (hash2 : Fr → Fr → Fr) (x : Fr) :
    buildLevels hash2 [x] = x := by
  unfold buildLevels
  simp

/-- The table any getZeroHashes call returns, for every cache state
reachable by prior calls: depth d holds the d-th zero hash. -/
theorem getZeroHashes_fst (hash2 : Fr → Fr → Fr) (st : ZeroHashCache) (maxDepth : Nat)
    (hv : ValidCache hash2 st) :
    (getZeroHashes hash2 st maxDepth).1 =
      (List.range (maxDepth + 1)).map (specZeroHash hash2) := by
  rcases hv with h | ⟨n, h⟩
  · subst h
    rw [getZeroHashes, initialCache, computeZeroHashes_eq_map]
  · subst h
    rw [getZeroHashes]
    simp only
    split
    · next hle =>
      rw [computeZeroHashes_eq_map, ← List.map_take, List.take_range]
      have : (maxDepth + 1) ⊓ (n + 1) = maxDepth + 1 := by omega
      rw [this]
    · rw [computeZeroHashes_eq_map]

theorem getZeroHashes_snd_of_le (hash2 : Fr → Fr → Fr) (n maxDepth : Nat)
    (hle : maxDepth ≤ n) :
    (getZeroHashes hash2 ⟨some (computeZeroHashes hash2 n), n⟩ maxDepth).2 =
      ⟨some (computeZeroHashes hash2 n), n⟩ := by
  rw [getZeroHashes]
  simp [hle]

theorem getZeroHashes_snd_of_gt (hash2 : Fr → Fr → Fr) (st : ZeroHashCache) (maxDepth : Nat)
    (h : ∀ zh, st.cachedZeroHashes = some zh → st.cachedMaxDepth < maxDepth) :
    (getZeroHashes hash2 st maxDepth).2 =
      ⟨some (computeZeroHashes hash2 maxDepth), maxDepth⟩ := by
  rw [getZeroHashes]
  rcases hz : st.cachedZeroHashes with _ | zh
  · simp
  · have := h zh hz
    simp [Nat.not_le_of_lt this]

end Imt

namespace Claims

open Imt

/-- C2: buildIMT and buildIMTFromCiphertexts compute the root by
returning the additive identity for the empty leaf list, returning a
single leaf unchanged (no padding, no hashing), and otherwise
right-padding the leaves with the additive identity up to the next
power of two and repeatedly hashing adjacent pairs until one element
remains; buildIMTFromCiphertexts does the same after mapping each
ciphertext to its leaf hash. -/
theorem c2_buildIMT_root (hash2 : Fr → Fr → Fr) :
    buildIMT hash2 [] = Fr.ZERO ∧
    (∀ x : Fr, buildIMT hash2 [x] = x) ∧
    (∀ leaves : List Fr, leaves ≠ [] →
      buildIMT hash2 leaves =
        buildLevels hash2
          (leaves ++
            List.replicate (2 ^ Nat.clog 2 leaves.length - leaves.length) Fr.ZERO)) ∧
    (∀ frFromBuffer hashWithSeparator (ciphertexts : List (List Nat)),
      buildIMTFromCiphertexts frFromBuffer hashWithSeparator hash2 ciphertexts =
        buildIMT hash2
          (ciphertexts.map (hashCiphertextToLeaf frFromBuffer hashWithSeparator))) := by
  refine ⟨rfl, ?_, ?_, fun _ _ _ => rfl⟩
  · intro x
    show buildLevels hash2 ([x] ++ List.replicate (2 ^ Nat.clog 2 1 - 1) Fr.ZERO) = x
    rw [Nat.clog_one_right]
    exact buildLevels_singleton hash2 x
  · intro leaves hne
    have hlen : leaves.length ≠ 0 := by
      simpa using fun h => hne (List.length_eq_zero.mp h)
    rw [buildIMT, if_neg hlen]

/-- C8: for every maxDepth and every cache state left by prior calls,
getZeroHashes returns a table of maxDepth + 1 entries whose entry 0 is
the additive identity and whose entry d, for 1 ≤ d ≤ maxDepth, is the
hash of two copies of entry d - 1. -/
theorem c8_getZeroHashes_recurrence (hash2 : Fr → Fr → Fr) (st : ZeroHashCache)
    (maxDepth : Nat) (hv : ValidCache hash2 st) :
    ((getZeroHashes hash2 st maxDepth).1.length = maxDepth + 1) ∧
    ((getZeroHashes hash2 st maxDepth).1.getD 0 Fr.ZERO = Fr.ZERO) ∧
    (∀ d, 1 ≤ d → d ≤ maxDepth →
      (getZeroHashes hash2 st maxDepth).1.getD d Fr.ZERO =
        hash2 ((getZeroHashes hash2 st maxDepth).1.getD (d - 1) Fr.ZERO)
              ((getZeroHashes hash2 st maxDepth).1.getD (d - 1) Fr.ZERO)) := by
  rw [getZeroHashes_fst hash2 st maxDepth hv]
  refine ⟨by simp, ?_, ?_⟩
  · rw [List.getD_eq_getElem?_getD, List.getElem?_map]
    simp [List.getElem?_range, Nat.succ_pos]
    rfl
  · intro d h1 h2
    have hget : ∀ e, e ≤ maxDepth →
        ((List.range (maxDepth + 1)).map (specZeroHash hash2)).getD e Fr.ZERO =
          specZeroHash hash2 e := by
      intro e he
      rw [List.getD_eq_getElem?_getD, List.getElem?_map]
      simp [List.getElem?_range, Nat.lt_succ_of_le he]
    rw [hget d h2, hget (d - 1) (by omega)]
    obtain ⟨e, rfl⟩ : ∃ e, d = e + 1 := ⟨d - 1, by omega⟩
    simp [specZeroHash]

/-- A concrete two-argument hash standing in for poseidon2 in witnesses
and counterexamples. -/
def demoHash2 : Fr → Fr → Fr := fun a b => a + b + 1

/-- Witness for C8: the property evaluated at the untouched cache with
maxDepth = 2 and a concrete hash. -/
theorem c8_getZeroHashes_recurrence_witness :
    ((getZeroHashes demoHash2 initialCache 2).1.length = 2 + 1) ∧
    ((getZeroHashes demoHash2 initialCache 2).1.getD 0 Fr.ZERO = Fr.ZERO) ∧
    (∀ d, 1 ≤ d → d ≤ 2 →
      (getZeroHashes demoHash2 initialCache 2).1.getD d Fr.ZERO =
        demoHash2 ((getZeroHashes demoHash2 initialCache 2).1.getD (d - 1) Fr.ZERO)
                  ((getZeroHashes demoHash2 initialCache 2).1.getD (d - 1) Fr.ZERO)) :=
  c8_getZeroHashes_recurrence demoHash2 initialCache 2 (Or.inl rfl)

/-- C4 counterexample: after a call that covered depths 0 and 1, a call
asking for depth 2 performs two hash evaluations, recomputing the
already covered depth 1 from scratch instead of extending the cached
table by the single uncovered depth. -/
theorem c4_recompute_counterexample :
    getZeroHashesCost ((getZeroHashes demoHash2 initialCache 1).2) 2 = 2 ∧
    ((getZeroHashes demoHash2 initialCache 1).2).cachedMaxDepth = 1 ∧
    getZeroHashesCost ((getZeroHashes demoHash2 initialCache 1).2) 2 ≠ 2 - 1 := by
  decide

/-- C4 amended: the zero-hash cache never shrinks and stays consistent
(the new table extends every previously cached table as a prefix), and
a request within the cached depth computes no hashes; but a request
exceeding the cached depth rebuilds the whole table from depth 0,
performing one hash evaluation per depth up to the request, covered
depths included, rather than extending the cached table. -/
theorem c4_cache_monotone (hash2 : Fr → Fr → Fr) (st : ZeroHashCache) (maxDepth : Nat)
    (hv : ValidCache hash2 st) :
    (st.cachedMaxDepth ≤ (getZeroHashes hash2 st maxDepth).2.cachedMaxDepth) ∧
    ValidCache hash2 (getZeroHashes hash2 st maxDepth).2 ∧
    (∀ zh, st.cachedZeroHashes = some zh →
      ∃ zh2, (getZeroHashes hash2 st maxDepth).2.cachedZeroHashes = some zh2 ∧
        zh2.take zh.length = zh) ∧
    (∀ zh, st.cachedZeroHashes = some zh → maxDepth ≤ st.cachedMaxDepth →
      getZeroHashesCost st maxDepth = 0) ∧
    (st.cachedZeroHashes = none ∨ st.cachedMaxDepth < maxDepth →
      getZeroHashesCost st maxDepth = computeZeroHashesCost maxDepth) := by
  rcases hv with h | ⟨n, h⟩
  · subst h
    refine ⟨Nat.zero_le _, Or.inr ⟨maxDepth, rfl⟩, ?_, ?_, ?_⟩
    · intro zh hzh
      exact absurd hzh (by simp [initialCache])
    · intro zh hzh
      exact absurd hzh (by simp [initialCache])
    · intro _
      rfl
  · subst h
    by_cases hle : maxDepth ≤ n
    · rw [getZeroHashes_snd_of_le hash2 n maxDepth hle]
      refine ⟨le_refl n, Or.inr ⟨n, rfl⟩, ?_, ?_, ?_⟩
      · intro zh hzh
        obtain rfl : computeZeroHashes hash2 n = zh := Option.some.inj hzh
        exact ⟨computeZeroHashes hash2 n, rfl, by simp⟩
      · intro zh _ _
        simp [getZeroHashesCost, hle]
      · rintro (hnone | hlt)
        · exact absurd hnone (by simp)
        · exact absurd (show n < maxDepth from hlt) (by omega)
    · have hgt : n < maxDepth := by omega
      rw [getZeroHashes_snd_of_gt hash2 _ maxDepth (fun zh _ => hgt)]
      refine ⟨Nat.le_of_lt hgt, Or.inr ⟨maxDepth, rfl⟩, ?_, ?_, ?_⟩
      · intro zh hzh
        obtain rfl : computeZeroHashes hash2 n = zh := Option.some.inj hzh
        refine ⟨computeZeroHashes hash2 maxDepth, rfl, ?_⟩
        rw [computeZeroHashes_length,
          computeZeroHashes_eq_map, computeZeroHashes_eq_map, ← List.map_take,
          List.take_range]
        have : (n + 1) ⊓ (maxDepth + 1) = n + 1 := by omega
        rw [this]
      · intro zh _ hcon
        exact absurd (show maxDepth ≤ n from hcon) (by omega)
      · intro _
        simp [getZeroHashesCost, hle]

/-- Witness for C4 amended: the property evaluated at a cache covering
depths 0 and 1 with a request for depth 3. -/
theorem c4_cache_monotone_witness :
    ((⟨some (computeZeroHashes demoHash2 1), 1⟩ : ZeroHashCache).cachedMaxDepth ≤
      (getZeroHashes demoHash2 ⟨some (computeZeroHashes demoHash2 1), 1⟩ 3).2.cachedMaxDepth) ∧
    ValidCache demoHash2 (getZeroHashes demoHash2 ⟨some (computeZeroHashes demoHash2 1), 1⟩ 3).2 ∧
    (∀ zh, (⟨some (computeZeroHashes demoHash2 1), 1⟩ : ZeroHashCache).cachedZeroHashes = some zh →
      ∃ zh2, (getZeroHashes demoHash2 ⟨some (computeZeroHashes demoHash2 1), 1⟩ 3).2.cachedZeroHashes = some zh2 ∧
        zh2.take zh.length = zh) ∧
    (∀ zh, (⟨some (computeZeroHashes demoHash2 1), 1⟩ : ZeroHashCache).cachedZeroHashes = some zh → 3 ≤ 1 →
      getZeroHashesCost ⟨some (computeZeroHashes demoHash2 1), 1⟩ 3 = 0) ∧
    ((⟨some (computeZeroHashes demoHash2 1), 1⟩ : ZeroHashCache).cachedZeroHashes = none ∨ 1 < 3 →
      getZeroHashesCost ⟨some (computeZeroHashes demoHash2 1), 1⟩ 3 = computeZeroHashesCost 3) :=
  c4_cache_monotone demoHash2 ⟨some (computeZeroHashes demoHash2 1), 1⟩ 3 (Or.inr ⟨1, rfl⟩)

theorem padTo_take (n : Nat) (l : List Nat) : padTo n l = padTo n (l.take n) := by
  rw [padTo, padTo, List.take_take, List.length_take]
  have h1 : n ⊓ n = n := by omega
  have h2 : n - n ⊓ l.length = n - l.length := by omega
  rw [h1, h2]

/-- C10: the leaf hash reads at most the 32-byte tag plus 544 body
bytes of a ciphertext: two ciphertexts agreeing on their first 576
bytes get equal leaf hashes, and two ciphertext lists agreeing
elementwise on those prefixes get equal roots from
buildIMTFromCiphertexts. -/
theorem c10_leaf_first_576_bytes (frFromBuffer : List Nat → Fr)
    (hashWithSeparator : List Fr → Nat → Fr) (hash2 : Fr → Fr → Fr) :
    (∀ c1 c2 : List Nat, c1.take 576 = c2.take 576 →
      hashCiphertextToLeaf frFromBuffer hashWithSeparator c1 =
        hashCiphertextToLeaf frFromBuffer hashWithSeparator c2) ∧
    (∀ cts1 cts2 : List (List Nat),
      List.Forall₂ (fun a b => a.take 576 = b.take 576) cts1 cts2 →
      buildIMTFromCiphertexts frFromBuffer hashWithSeparator hash2 cts1 =
        buildIMTFromCiphertexts frFromBuffer hashWithSeparator hash2 cts2) := by
  have key : ∀ c : List Nat,
      (c.drop 32).take (17 * 32) = ((c.take 576).drop 32).take (17 * 32) := by
    intro c
    rw [List.take_drop, List.take_drop, List.take_take]
    norm_num
  have hleaf : ∀ c1 c2 : List Nat, c1.take 576 = c2.take 576 →
      hashCiphertextToLeaf frFromBuffer hashWithSeparator c1 =
        hashCiphertextToLeaf frFromBuffer hashWithSeparator c2 := by
    intro c1 c2 h
    have hpad : ∀ c : List Nat,
        padTo (17 * 32) (c.drop 32) = padTo (17 * 32) ((c.take 576).drop 32) := by
      intro c
      rw [padTo_take (17 * 32) (c.drop 32), padTo_take (17 * 32) ((c.take 576).drop 32),
        key c]
    show hashWithSeparator
        ((List.range 17).map fun i => frFromBuffer (chunkAt (padTo (17 * 32) (c1.drop 32)) i)) 0 =
      hashWithSeparator
        ((List.range 17).map fun i => frFromBuffer (chunkAt (padTo (17 * 32) (c2.drop 32)) i)) 0
    rw [hpad c1, hpad c2, h]
  refine ⟨hleaf, ?_⟩
  intro cts1 cts2 hall
  have hmap : cts1.map (hashCiphertextToLeaf frFromBuffer hashWithSeparator) =
      cts2.map (hashCiphertextToLeaf frFromBuffer hashWithSeparator) := by
    induction hall with
    | nil => rfl
    | cons h _ ih => simp only [List.map_cons, hleaf _ _ h, ih]
  rw [buildIMTFromCiphertexts, buildIMTFromCiphertexts, hmap]

end Claims

namespace Decrypt

/-- Byte buffers, one natural number per byte. -/
abbrev Bytes := List Nat

/-- A Grumpkin curve point, two field coordinates. -/
structure Point where
  x : Nat
  y : Nat
deriving DecidableEq

/-- The external collaborators decrypt.ts calls, each allowed to fail
(throw) since the catch-all of decryptNote must absorb any failure:
Fr.fromBuffer, Fr.toBuffer, Point.fromXAndSign,
CompleteAddress.getPreaddress, computeAddressSecret,
deriveEcdhSharedSecret, poseidon2HashWithSeparator,
Aes128.decryptBufferCBC, and the two numeric GeneratorIndex domain
separators from the constants package. -/
structure Prims where
  frFromBuffer : Bytes → Except String Nat
  frToBuffer : Nat → Bytes
  fromXAndSign : Nat → Bool → Except String Point
  getPreaddress : Except String Nat
  computeAddressSecret : Nat → Nat → Except String Nat
  deriveEcdhSharedSecret : Nat → Point → Except String Point
  poseidon2HashWithSeparator : List Nat → Nat → Except String Nat
  decryptBufferCBC : Bytes → Bytes → Bytes → Except String Bytes
  symmetricKey : Nat
  symmetricKey2 : Nat

/-- The four symmetric key/IV pairs of deriveAesKeys. -/
structure AesKeys where
  bodyKey : Bytes
  bodyIv : Bytes
  headerKey : Bytes
  headerIv : Bytes
deriving DecidableEq

/-- deriveAesKeys from decrypt.ts: hash the shared secret coordinates
with four domain separators (the header pair offset by 1 shl 8 = 256),
take bytes 16..31 of each 32-byte hash output and reverse them. -/
def deriveAesKeys (p : Prims) (sharedSecret : Point) : Except String AesKeys := do
  let rand1 ← p.poseidon2HashWithSeparator [sharedSecret.x, sharedSecret.y] p.symmetricKey
  let rand2 ← p.poseidon2HashWithSeparator [sharedSecret.x, sharedSecret.y] p.symmetricKey2
  let rand1Bytes := p.frToBuffer rand1
  let rand2Bytes := p.frToBuffer rand2
  let bodyKey := ((rand1Bytes.drop 16).take 16).reverse
  let bodyIv := ((rand2Bytes.drop 16).take 16).reverse
  let rand3 ← p.poseidon2HashWithSeparator [sharedSecret.x, sharedSecret.y]
    (256 + p.symmetricKey)
  let rand4 ← p.poseidon2HashWithSeparator [sharedSecret.x, sharedSecret.y]
    (256 + p.symmetricKey2)
  let rand3Bytes := p.frToBuffer rand3
  let rand4Bytes := p.frToBuffer rand4
  let headerKey := ((rand3Bytes.drop 16).take 16).reverse
  let headerIv := ((rand4Bytes.drop 16).take 16).reverse
  pure { bodyKey := bodyKey, bodyIv := bodyIv, headerKey := headerKey, headerIv := headerIv }

/-- unpackFieldsToBytes from decrypt.ts: for each whole 32-byte field
of the packed buffer keep its last 31 bytes (the leading byte of a
validly packed field is zero) and concatenate. -/
def unpackFieldsToBytes (packedBuffer : Bytes) : Bytes :=
  ((List.range (packedBuffer.length / 32)).map
    (fun i => ((packedBuffer.drop (i * 32)).take 32).drop 1)).flatten

/-- reconstructPublicKey from decrypt.ts: lift an x-coordinate and a
sign bit to a point, catching any failure into null. -/
def reconstructPublicKey (p : Prims) (x : Nat) (signBit : Bool) : Option Point :=
  match p.fromXAndSign x signBit with
  | .ok pt => some pt
  | .error _ => none

/-- JS restBytes[0] !== 0: reading past the end of a buffer gives
undefined, and undefined !== 0 holds, so the empty buffer yields
true. -/
def ephPkSignOf (restBytes : Bytes) : Bool :=
  match restBytes with
  | [] => true
  | b :: _ => b != 0

/-- Steps 5 and 6 of decryptNote, operating on the unpacked remainder:
CBC-decrypt bytes 1..17 (the header ciphertext) with headerKey and
headerIv, read the declared body length as two big-endian bytes of the
result, and CBC-decrypt min(declaredLength, availableBytes) bytes from
offset 17 with bodyKey and bodyIv.  availableBytes is
restBytes.length - 17; in JS a negative value makes the slice empty,
matching truncated subtraction on Nat. -/
def decryptHeaderAndBody (p : Prims) (keys : AesKeys) (restBytes : Bytes) :
    Except String Bytes :=
  match p.decryptBufferCBC ((restBytes.drop 1).take 16) keys.headerIv keys.headerKey with
  | .error e => .error e
  | .ok headerPlaintext =>
    p.decryptBufferCBC
      ((restBytes.drop 17).take
        (min ((headerPlaintext.getD 0 0) <<< 8 ||| headerPlaintext.getD 1 0)
          (restBytes.length - 17)))
      keys.bodyIv keys.bodyKey

/-- Steps 1..8 of decryptNote: parse the ciphertext structure,
reconstruct the ephemeral public key (returning null, not an error,
when that fails), run the key agreement and key derivation, and
decrypt header and body.  Produces the decrypted body bytes. -/
def decryptedBodyE (p : Prims) (encryptedLog : Bytes) (ivskM : Nat) :
    Except String (Option Bytes) := do
  let ciphertextWithoutTag := encryptedLog.drop 32
  let ephPkX ← p.frFromBuffer (ciphertextWithoutTag.take 32)
  let restFieldsBuffer := ciphertextWithoutTag.drop 32
  let restBytes := unpackFieldsToBytes restFieldsBuffer
  let ephPkSign := ephPkSignOf restBytes
  match reconstructPublicKey p ephPkX ephPkSign with
  | none => pure none
  | some ephPk => do
    let preaddress ← p.getPreaddress
    let addressSecret ← p.computeAddressSecret preaddress ivskM
    let sharedSecret ← p.deriveEcdhSharedSecret addressSecret ephPk
    let keys ← deriveAesKeys p sharedSecret
    let bodyPlaintext ← decryptHeaderAndBody p keys restBytes
    pure (some bodyPlaintext)

/-- The field-conversion loop of step 7 in decrypt.ts: walk the chunk
indices in order, converting bytes 32*i .. 32*i+31 with Fr.fromBuffer;
only indices with a complete 32-byte chunk are walked. -/
def mapChunks (p : Prims) (body : Bytes) : List Nat → Except String (List Nat)
  | [] => .ok []
  | i :: rest =>
    match p.frFromBuffer ((body.drop (i * 32)).take 32) with
    | .error e => .error e
    | .ok f =>
      match mapChunks p body rest with
      | .error e => .error e
      | .ok fs => .ok (f :: fs)

/-- Step 7 of decryptNote: convert the decrypted body back to fields,
32 bytes per field; the loop guard i + 32 <= length keeps only the
body.length / 32 complete chunks and drops a short final chunk. -/
def chunkCompleteFields (p : Prims) (body : Bytes) : Except String (List Nat) :=
  mapChunks p body (List.range (body.length / 32))

/-- The try-block of decryptNote: the decrypted body re-chunked into
fields, null when the ephemeral point could not be reconstructed. -/
def decryptNoteE (p : Prims) (encryptedLog : Bytes) (ivskM : Nat) :
    Except String (Option (List Nat)) :=
  match decryptedBodyE p encryptedLog ivskM with
  | .error e => .error e
  | .ok none => .ok none
  | .ok (some body) =>
    match chunkCompleteFields p body with
    | .error e => .error e
    | .ok fields => .ok (some fields)

/-- decryptNote from decrypt.ts: the whole pipeline inside a catch-all
that turns any failure into null. -/
def decryptNote (p : Prims) (encryptedLog : Bytes) (ivskM : Nat) : Option (List Nat) :=
  match decryptNoteE p encryptedLog ivskM with
  | .ok r => r
  | .error _ => none

/-- The parsed note structure parseNotePlaintext returns. -/
structure ParsedNote where
  msgTypeId : Nat
  noteTypeId : Nat
  owner : Nat
  storageSlot : Nat
  randomness : Nat
  packedNote : List Nat
deriving DecidableEq

/-- parseNotePlaintext from decrypt.ts: needs at least 4 fields; the
first field splits into the bits above the low 64 (msgTypeId) and the
low 64 bits (noteTypeId); fields 1..3 are owner (through
AztecAddress.fromField, modelled by the parameter fromField), storage
slot and randomness; the rest is the packed note. -/
def parseNotePlaintext (fromField : Nat → Nat) (plaintext : List Nat) :
    Option ParsedNote :=
  if plaintext.length < 4 then none
  else
    let expandedMetadata := plaintext.getD 0 0
    some {
      msgTypeId := expandedMetadata >>> 64,
      noteTypeId := expandedMetadata &&& (2 ^ 64 - 1),
      owner := fromField (plaintext.getD 1 0),
      storageSlot := plaintext.getD 2 0,
      randomness := plaintext.getD 3 0,
      packedNote := plaintext.drop 4 }

theorem mapChunks_length (p : Prims) (body : Bytes) :
    ∀ (l fs : List Nat), mapChunks p body l = .ok fs → fs.length = l.length
  | [], fs, h => by
    simp only [mapChunks] at h
    cases h
    rfl
  | i :: rest, fs, h => by
    simp only [mapChunks] at h
    revert h
    cases hf : p.frFromBuffer ((body.drop (i * 32)).take 32) with
    | error e => intro h; cases h
    | ok f =>
      cases hrest : mapChunks p body rest with
      | error e => intro h; cases h
      | ok fs2 =>
        intro h
        cases h
        simp [mapChunks_length p body rest fs2 hrest]

theorem decryptNoteE_ok_some (p : Prims) (encryptedLog : Bytes) (ivskM : Nat) (body : Bytes)
    (h : decryptedBodyE p encryptedLog ivskM = .ok (some body)) :
    decryptNoteE p encryptedLog ivskM =
      match chunkCompleteFields p body with
      | .ok fs => .ok (some fs)
      | .error e => .error e := by
  unfold decryptNoteE
  rw [h]
  show (match chunkCompleteFields p body with
    | .error e => .error e
    | .ok fields => .ok (some fields)) =
      (match chunkCompleteFields p body with
      | .ok fs => Except.ok (some fs)
      | .error e => .error e)
  cases hc : chunkCompleteFields p body <;> rfl

theorem shiftLeft8_lor_eq (x y : Nat) (h : y < 256) :
    (x <<< 8) ||| y = 256 * x + y := by
  have h8 : y < 2 ^ 8 := by norm_num at h ⊢; omega
  have : (x <<< 8) ||| y = 2 ^ 8 * x + y := by
    apply Nat.eq_of_testBit_eq
    intro j
    rw [Nat.testBit_lor, Nat.testBit_shiftLeft, Nat.testBit_mul_pow_two_add x h8 j]
    by_cases hj : j < 8
    · have hn : ¬(j ≥ 8) := by omega
      simp [hn, hj]
    · have hge : j ≥ 8 := by omega
      have hy : y.testBit j = false :=
        Nat.testBit_eq_false_of_lt
          (lt_of_lt_of_le h8 (Nat.pow_le_pow_right (by norm_num) hge))
      simp [hge, hj, hy]
  rw [this]
  norm_num

end Decrypt

namespace Claims

open Decrypt

/-- C5: decryptNote is the catch-all wrapper of the fallible pipeline:
its result is exactly the pipeline result with every thrown error
turned into null, so a failure at any step (point reconstruction,
key derivation, cipher call, field conversion) yields null and no
exception reaches the caller. -/
theorem c5_decryptNote_absorbs_failures (p : Prims) (encryptedLog : Bytes) (ivskM : Nat) :
    decryptNote p encryptedLog ivskM =
      ((decryptNoteE p encryptedLog ivskM).toOption).bind id ∧
    (∀ e, decryptNoteE p encryptedLog ivskM = .error e →
      decryptNote p encryptedLog ivskM = none) ∧
    (∀ r, decryptNoteE p encryptedLog ivskM = .ok r →
      decryptNote p encryptedLog ivskM = r) := by
  refine ⟨?_, ?_, ?_⟩
  · cases h : decryptNoteE p encryptedLog ivskM <;>
      simp [decryptNote, h, Except.toOption]
  · intro e he
    simp [decryptNote, he]
  · intro r hr
    simp [decryptNote, hr]

/-- C6: the declared body length is read as two big-endian bytes of the
CBC decryption of bytes 1..17 of the unpacked remainder (a 16-byte
header ciphertext whenever at least 17 unpacked bytes exist), and the
body CBC call receives exactly min(declaredLength, availableBytes)
bytes from offset 17, availableBytes being the unpacked length minus
17. -/
theorem c6_header_and_body_slices (p : Prims) (keys : AesKeys) (restBytes : Bytes)
    (headerPlaintext : Bytes)
    (hhdr : p.decryptBufferCBC ((restBytes.drop 1).take 16) keys.headerIv keys.headerKey =
      .ok headerPlaintext)
    (hbyte : headerPlaintext.getD 1 0 < 256) :
    decryptHeaderAndBody p keys restBytes =
      p.decryptBufferCBC
        ((restBytes.drop 17).take
          (min (256 * headerPlaintext.getD 0 0 + headerPlaintext.getD 1 0)
            (restBytes.length - 17)))
        keys.bodyIv keys.bodyKey ∧
    (17 ≤ restBytes.length → ((restBytes.drop 1).take 16).length = 16) := by
  constructor
  · unfold decryptHeaderAndBody
    rw [hhdr]
    show p.decryptBufferCBC
        ((restBytes.drop 17).take
          (min ((headerPlaintext.getD 0 0) <<< 8 ||| headerPlaintext.getD 1 0)
            (restBytes.length - 17)))
        keys.bodyIv keys.bodyKey = _
    rw [shiftLeft8_lor_eq _ _ hbyte]
  · intro h
    simp only [List.length_take, List.length_drop]
    omega

/-- Concrete primitives for witnesses and counterexamples: the cipher
is the identity, every other collaborator succeeds with a fixed
value. -/
def demoPrims : Prims := {
  frFromBuffer := fun _ => .ok 0,
  frToBuffer := fun _ => List.replicate 32 0,
  fromXAndSign := fun _ _ => .ok ⟨0, 0⟩,
  getPreaddress := .ok 0,
  computeAddressSecret := fun _ _ => .ok 0,
  deriveEcdhSharedSecret := fun _ _ => .ok ⟨0, 0⟩,
  poseidon2HashWithSeparator := fun _ _ => .ok 0,
  decryptBufferCBC := fun ct _ _ => .ok ct,
  symmetricKey := 0,
  symmetricKey2 := 0 }

/-- Concrete AES keys for the C6 witness. -/
def demoKeys : AesKeys := ⟨[], [], [], []⟩

/-- Witness for C6: evaluated with the identity cipher on the unpacked
remainder 0, 1, ..., 19, whose decrypted header declares body length
256 * 1 + 2. -/
theorem c6_header_and_body_slices_witness :
    (decryptHeaderAndBody demoPrims demoKeys (List.range 20) =
      demoPrims.decryptBufferCBC
        (((List.range 20).drop 17).take
          (min (256 * (((List.range 20).drop 1).take 16).getD 0 0 +
            (((List.range 20).drop 1).take 16).getD 1 0) ((List.range 20).length - 17)))
        demoKeys.bodyIv demoKeys.bodyKey) ∧
    (17 ≤ (List.range 20).length → (((List.range 20).drop 1).take 16).length = 16) :=
  c6_header_and_body_slices demoPrims demoKeys (List.range 20)
    (((List.range 20).drop 1).take 16) rfl (by decide)

/-- The encrypted log used to refute C3: 128 bytes, all zero except
byte 67, chosen so that the unpacked remainder declares a body length
of 33 bytes. -/
def cexLog : Bytes := List.replicate 67 0 ++ [33] ++ List.replicate 60 0

/-- C3 counterexample: with the identity cipher, the decrypted body of
cexLog has 33 bytes, yet decryptNote returns a single field, not the
ceil(33/32) = 2 fields the claim requires, because the short final
chunk is dropped rather than zero-padded. -/
theorem c3_short_final_chunk_counterexample :
    decryptedBodyE demoPrims cexLog 0 = .ok (some (List.replicate 33 0)) ∧
    decryptNote demoPrims cexLog 0 = some [0] ∧
    ¬((decryptNote demoPrims cexLog 0).map List.length = some ((33 + 31) / 32)) := by
  refine ⟨rfl, rfl, by decide⟩

/-- C3 amended: step 9 of decryptNote re-chunks the decrypted body
keeping only complete 32-byte chunks: it returns exactly
floor(bodyLength/32) field elements and drops a short final chunk
(no zero padding); a failing field conversion yields null. -/
theorem c3_rechunk_floor (p : Prims) (encryptedLog : Bytes) (ivskM : Nat) (body : Bytes)
    (hbody : decryptedBodyE p encryptedLog ivskM = .ok (some body)) :
    (∀ fs, chunkCompleteFields p body = .ok fs →
      decryptNote p encryptedLog ivskM = some fs ∧ fs.length = body.length / 32) ∧
    (∀ e, chunkCompleteFields p body = .error e →
      decryptNote p encryptedLog ivskM = none) := by
  have hnote := decryptNoteE_ok_some p encryptedLog ivskM body hbody
  constructor
  · intro fs hfs
    rw [hfs] at hnote
    refine ⟨by rw [decryptNote, hnote], ?_⟩
    have hlen := mapChunks_length p body (List.range (body.length / 32)) fs hfs
    simpa using hlen
  · intro e he
    rw [he] at hnote
    rw [decryptNote, hnote]

/-- Witness for C3 amended: the amended behavior evaluated on the
concrete 33-byte decrypted body of cexLog. -/
theorem c3_rechunk_floor_witness :
    (∀ fs, chunkCompleteFields demoPrims (List.replicate 33 0) = .ok fs →
      decryptNote demoPrims cexLog 0 = some fs ∧
        fs.length = (List.replicate 33 (0 : Nat)).length / 32) ∧
    (∀ e, chunkCompleteFields demoPrims (List.replicate 33 0) = .error e →
      decryptNote demoPrims cexLog 0 = none) :=
  c3_rechunk_floor demoPrims cexLog 0 (List.replicate 33 0) rfl

/-- C7: parseNotePlaintext returns null exactly when fewer than 4
fields are present; otherwise msgTypeId is the part of field 0 above
its low 64 bits, noteTypeId its low 64 bits (together they decompose
field 0), owner comes from field 1 through AztecAddress.fromField,
storage slot is field 2, randomness field 3, and the packed note is
everything from field 4 on. -/
theorem c7_parseNotePlaintext_fields (fromField : Nat → Nat) (plaintext : List Nat) :
    (parseNotePlaintext fromField plaintext = none ↔ plaintext.length < 4) ∧
    (4 ≤ plaintext.length →
      parseNotePlaintext fromField plaintext = some {
        msgTypeId := plaintext.getD 0 0 >>> 64,
        noteTypeId := plaintext.getD 0 0 &&& (2 ^ 64 - 1),
        owner := fromField (plaintext.getD 1 0),
        storageSlot := plaintext.getD 2 0,
        randomness := plaintext.getD 3 0,
        packedNote := plaintext.drop 4 }) ∧
    (plaintext.getD 0 0 =
      (plaintext.getD 0 0 >>> 64) * 2 ^ 64 + (plaintext.getD 0 0 &&& (2 ^ 64 - 1))) := by
  refine ⟨?_, ?_, ?_⟩
  · by_cases h : plaintext.length < 4 <;> simp [parseNotePlaintext, h]
  · intro h
    rw [parseNotePlaintext, if_neg (by omega)]
  · rw [Nat.shiftRight_eq_div_pow, Nat.and_pow_two_sub_one_eq_mod]
    have := Nat.div_add_mod (plaintext.getD 0 0) (2 ^ 64)
    omega

end Claims

namespace ProofTree

/-- The internal proof artifact passed between aggregation levels:
proof bytes, the proof as fields, the public-input triple
(value, tree leaf or root, vkey hash) and the running bigint value. -/
structure ProofArtifact where
  proof : List Nat
  proofAsFields : List Nat
  publicInputs : List Nat
  value : Int
deriving DecidableEq

/-- The named inputs of the note_summary_tree circuit; the optional
inputs keep their _is_some and _value components as isSome and val
fields. -/
structure SummaryInputs where
  verification_key : List Nat
  vkey_hash : Nat
  proof_left : List Nat
  proof_right_isSome : Bool
  proof_right_val : List Nat
  public_inputs_left : List Nat
  public_inputs_right_isSome : Bool
  public_inputs_right_val : List Nat
  zero_leaf_hint_isSome : Bool
  zero_leaf_hint_val : Nat
  summary_vkey_hash : Nat
deriving DecidableEq

/-- The proving backend operations used for the summary circuit:
execute yields a witness and the declared (sum, root, out vkey hash)
triple, generateProof and verifyProof the UltraHonk calls, and
generateRecursiveProofArtifacts the (vkAsFields, vkHash) extraction. -/
structure SummaryBackend where
  execute : SummaryInputs → Nat × (Nat × Nat × Nat)
  generateProof : Nat → List Nat
  verifyProof : List Nat → Bool
  generateRecursiveProofArtifacts : List Nat → List Nat × Nat

/-- The verification-key caches of one ProofTree instance, each null
until computed. -/
structure TreeState where
  leafVkAsFields : Option (List Nat)
  leafVkHash : Option Nat
  summaryVkAsFields : Option (List Nat)
  summaryVkHash : Option Nat
deriving DecidableEq

/-- The two errors combineProofs can throw. -/
inductive TreeError where
  | missingSummaryKey
  | invalidSummaryProof
deriving DecidableEq

/-- A 32-byte chunk read as the number its hex string denotes. -/
def beNat (bytes : List Nat) : Nat :=
  bytes.foldl (fun acc b => acc * 256 + b) 0

/-- proofBytesToFields: cut the proof bytes into 32-byte chunks, the
last one possibly short, one field per chunk. -/
def proofBytesToFields (proofBytes : List Nat) : List Nat :=
  (List.range ((proofBytes.length + 31) / 32)).map
    (fun i => beNat ((proofBytes.drop (i * 32)).take 32))

/-- precomputeSummaryVkHash: generate one throwaway summary proof from
the left artifact alone, with zero_leaf_hint set to zero hash 0 and a
0x0 placeholder summary_vkey_hash, and cache the summary vkey
artifacts extracted from that proof. -/
def precomputeSummaryVkHash (be : SummaryBackend) (zeroHashes : List Nat) (st : TreeState)
    (sampleProof : ProofArtifact) (vkAsFields : List Nat) (vkHash : Nat) : TreeState :=
  let emptyProof := List.replicate sampleProof.proofAsFields.length 0
  let throwawayInputs : SummaryInputs := {
    verification_key := vkAsFields,
    vkey_hash := vkHash,
    proof_left := sampleProof.proofAsFields,
    proof_right_isSome := false,
    proof_right_val := emptyProof,
    public_inputs_left := sampleProof.publicInputs,
    public_inputs_right_isSome := false,
    public_inputs_right_val := [0, 0, 0],
    zero_leaf_hint_isSome := true,
    zero_leaf_hint_val := zeroHashes.getD 0 0,
    summary_vkey_hash := 0 }
  let witness := (be.execute throwawayInputs).1
  let proof := be.generateProof witness
  let artifacts := be.generateRecursiveProofArtifacts proof
  { st with summaryVkAsFields := some artifacts.1, summaryVkHash := some artifacts.2 }

/-- The verification-key selection at the top of combineProofs: the
cached leaf key at level 0, the cached summary key above, whose
absence throws MissingSummaryKey.  The non-null assertions of the
source on cached keys are modelled with getD defaults. -/
def selectVk (st : TreeState) (level : Nat) : Except TreeError (List Nat × Nat) :=
  if level = 0 then .ok (st.leafVkAsFields.getD [], st.leafVkHash.getD 0)
  else
    match st.summaryVkAsFields with
    | none => .error .missingSummaryKey
    | some vkF => .ok (vkF, st.summaryVkHash.getD 0)

/-- The bootstrap step of combineProofs: when the summary vkey hash is
still unknown, generate the throwaway proof and cache its artifacts. -/
def bootstrapState (be : SummaryBackend) (zeroHashes : List Nat) (st : TreeState)
    (left : ProofArtifact) (vkAsFields : List Nat) (vkHash : Nat) : TreeState :=
  if st.summaryVkHash.isNone then
    precomputeSummaryVkHash be zeroHashes st left vkAsFields vkHash
  else st

/-- The summary circuit inputs combineProofs assembles for one pair:
absent right children are replaced by zero placeholders of matching
shape, and the zero-leaf hint is present exactly when the right child
is absent. -/
def summaryInputsOf (left : ProofArtifact) (right : Option ProofArtifact)
    (zeroLeafForLevel : Nat) (vkAsFields : List Nat) (vkHash : Nat)
    (summaryVkeyHash : Nat) : SummaryInputs :=
  { verification_key := vkAsFields,
    vkey_hash := vkHash,
    proof_left := left.proofAsFields,
    proof_right_isSome := right.isSome,
    proof_right_val :=
      match right with
      | some r => r.proofAsFields
      | none => List.replicate left.proofAsFields.length 0,
    public_inputs_left := left.publicInputs,
    public_inputs_right_isSome := right.isSome,
    public_inputs_right_val :=
      match right with
      | some r => r.publicInputs
      | none => [0, 0, 0],
    zero_leaf_hint_isSome := !right.isSome,
    zero_leaf_hint_val :=
      match right with
      | some _ => 0
      | none => zeroLeafForLevel,
    summary_vkey_hash := summaryVkeyHash }

/-- The cache update after a successful summary proof: extract and
store the summary vkey artifacts if not cached yet. -/
def cacheSummaryVk (be : SummaryBackend) (st1 : TreeState) (proof : List Nat) : TreeState :=
  if st1.summaryVkAsFields.isNone then
    let artifacts := be.generateRecursiveProofArtifacts proof
    { st1 with summaryVkAsFields := some artifacts.1, summaryVkHash := some artifacts.2 }
  else st1

/-- combineProofs: select the verification key by level, bootstrap the
summary vkey hash if unknown, execute the summary circuit on the pair,
generate and verify a recursive proof (InvalidSummaryProof on
failure), cache the summary vkey artifacts after the first summary
proof, and return the combined artifact, whose value is left.value
plus right.value, 0 standing in when the right child is absent. -/
def combineProofs (be : SummaryBackend) (zeroHashes : List Nat) (st : TreeState)
    (left : ProofArtifact) (right : Option ProofArtifact) (level : Nat) :
    Except TreeError (ProofArtifact × TreeState) :=
  match selectVk st level with
  | .error e => .error e
  | .ok (vkAsFields, vkHash) =>
    let st1 := bootstrapState be zeroHashes st left vkAsFields vkHash
    let inputs := summaryInputsOf left right (zeroHashes.getD level 0) vkAsFields vkHash
      (st1.summaryVkHash.getD 0)
    let execOut := be.execute inputs
    let proof := be.generateProof execOut.1
    if be.verifyProof proof = false then .error .invalidSummaryProof
    else
      .ok ({ proof := proof,
             proofAsFields := proofBytesToFields proof,
             publicInputs := [execOut.2.1, execOut.2.2.1, execOut.2.2.2],
             value := left.value + (match right with | some r => r.value | none => 0) },
           cacheSummaryVk be st1 proof)

/-- The pairing loop of one buildTree level: walk the artifacts two at
a time left to right, the odd last one paired with null, threading the
caches. -/
def combineLevel (be : SummaryBackend) (zeroHashes : List Nat) (st : TreeState)
    (level : Nat) : List ProofArtifact → Except TreeError (List ProofArtifact × TreeState)
  | [] => .ok ([], st)
  | [l] =>
    match combineProofs be zeroHashes st l none level with
    | .error e => .error e
    | .ok (c, st1) => .ok ([c], st1)
  | l :: r :: rest =>
    match combineProofs be zeroHashes st l (some r) level with
    | .error e => .error e
    | .ok (c, st1) =>
      match combineLevel be zeroHashes st1 level rest with
      | .error e => .error e
      | .ok (cs, st2) => .ok (c :: cs, st2)

theorem combineLevel_length (be : SummaryBackend) (zeroHashes : List Nat) (level : Nat) :
    ∀ (l : List ProofArtifact) (st : TreeState) (next : List ProofArtifact)
      (st2 : TreeState),
      combineLevel be zeroHashes st level l = .ok (next, st2) →
      next.length = (l.length + 1) / 2
  | [], st, next, st2, h => by
    simp only [combineLevel] at h
    cases h
    rfl
  | [l], st, next, st2, h => by
    simp only [combineLevel] at h
    split at h
    · cases h
    · cases h
      simp
  | l :: r :: rest, st, next, st2, h => by
    simp only [combineLevel] at h
    split at h
    · cases h
    · rename_i c st1 hc
      split at h
      · cases h
      · rename_i cs st3 hrest
        cases h
        have hlen := combineLevel_length be zeroHashes level rest st1 cs _ hrest
        simp only [List.length_cons, hlen]
        omega

/-- The artifact the source would read as currentLevel[0] on an empty
level, an out-of-bounds access that buildTree never performs on
non-empty input. -/
def defaultArtifact : ProofArtifact := ⟨[], [], [], 0⟩

/-- buildTree: starting from the given level (0 in prove), combine the
current level pairwise until at most one artifact remains and return
it. -/
def buildTree (be : SummaryBackend) (zeroHashes : List Nat) (st : TreeState)
    (proofs : List ProofArtifact) (level : Nat) :
    Except TreeError (ProofArtifact × TreeState) :=
  if proofs.length ≤ 1 then .ok (proofs.headD defaultArtifact, st)
  else
    match h2 : combineLevel be zeroHashes st level proofs with
    | .error e => .error e
    | .ok (next, st1) => buildTree be zeroHashes st1 next (level + 1)
termination_by proofs.length
decreasing_by
  have hlen := combineLevel_length be zeroHashes level proofs st next st1 h2
  simp only [not_le] at *
  omega

theorem bootstrapState_hash_isSome (be : SummaryBackend) (zh : List Nat) (st : TreeState)
    (left : ProofArtifact) (vkF : List Nat) (vkH : Nat) :
    (bootstrapState be zh st left vkF vkH).summaryVkHash.isSome := by
  unfold bootstrapState
  cases hst : st.summaryVkHash with
  | none => simp [hst, precomputeSummaryVkHash]
  | some v => simp [hst]

theorem cacheSummaryVk_isSome (be : SummaryBackend) (st1 : TreeState) (proof : List Nat)
    (h : st1.summaryVkHash.isSome) :
    (cacheSummaryVk be st1 proof).summaryVkAsFields.isSome ∧
    (cacheSummaryVk be st1 proof).summaryVkHash.isSome := by
  unfold cacheSummaryVk
  cases hf : st1.summaryVkAsFields with
  | none => simp
  | some v => simp [hf, h]

theorem combineProofs_ok (be : SummaryBackend) (zeroHashes : List Nat) (st : TreeState)
    (left : ProofArtifact) (right : Option ProofArtifact) (level : Nat)
    (c : ProofArtifact) (st2 : TreeState)
    (h : combineProofs be zeroHashes st left right level = .ok (c, st2)) :
    c.value = left.value + ((right.map ProofArtifact.value).getD 0) ∧
    st2.summaryVkAsFields.isSome ∧ st2.summaryVkHash.isSome := by
  unfold combineProofs at h
  split at h
  · cases h
  · rename_i vkF vkH hsel
    dsimp only at h
    split at h
    · cases h
    · cases h
      refine ⟨?_, ?_⟩
      · cases right <;> simp
      · exact cacheSummaryVk_isSome be _ _ (bootstrapState_hash_isSome be zeroHashes st left vkF vkH)

theorem combineProofs_error_cases (be : SummaryBackend) (zh : List Nat) (st : TreeState)
    (left : ProofArtifact) (right : Option ProofArtifact) (level : Nat) (e : TreeError)
    (h : combineProofs be zh st left right level = .error e) :
    e = .invalidSummaryProof ∨ (level ≠ 0 ∧ st.summaryVkAsFields = none) := by
  unfold combineProofs at h
  split at h
  · rename_i e2 hsel
    cases h
    right
    unfold selectVk at hsel
    split at hsel
    · cases hsel
    · rename_i hlevel
      revert hsel
      cases hf : st.summaryVkAsFields with
      | none => intro hsel; cases hsel; exact ⟨hlevel, rfl⟩
      | some v => intro hsel; cases hsel
  · rename_i vkF vkH hsel
    dsimp only at h
    split at h
    · cases h
      left
      rfl
    · cases h

theorem combineLevel_isSome (be : SummaryBackend) (zh : List Nat) (level : Nat) :
    ∀ (l : List ProofArtifact) (st : TreeState) (next : List ProofArtifact)
      (st2 : TreeState),
      l ≠ [] →
      combineLevel be zh st level l = .ok (next, st2) →
      st2.summaryVkAsFields.isSome ∧ st2.summaryVkHash.isSome
  | [], _, _, _, hne, _ => absurd rfl hne
  | [l], st, next, st2, _, h => by
    simp only [combineLevel] at h
    split at h
    · cases h
    · rename_i c st1 hc
      cases h
      exact (combineProofs_ok _ _ _ _ _ _ _ _ hc).2
  | l :: r :: rest, st, next, st2, _, h => by
    simp only [combineLevel] at h
    split at h
    · cases h
    · rename_i c st1 hc
      split at h
      · cases h
      · rename_i cs st3 hrest
        cases h
        cases rest with
        | nil =>
          simp only [combineLevel] at hrest
          cases hrest
          exact (combineProofs_ok _ _ _ _ _ _ _ _ hc).2
        | cons x xs =>
          exact combineLevel_isSome be zh level (x :: xs) st1 cs _ (by simp) hrest

theorem combineLevel_ne_missing (be : SummaryBackend) (zh : List Nat) :
    ∀ (l : List ProofArtifact) (st : TreeState) (level : Nat),
      (level = 0 ∨ st.summaryVkAsFields.isSome) →
      combineLevel be zh st level l ≠ .error .missingSummaryKey
  | [], st, level, _ => by simp [combineLevel]
  | [l], st, level, hinv => by
    intro hcon
    simp only [combineLevel] at hcon
    split at hcon
    · rename_i e hc
      cases hcon
      rcases combineProofs_error_cases be zh st l none level _ hc with h | ⟨hl, hn⟩
      · cases h
      · rcases hinv with h0 | hs
        · exact hl h0
        · rw [hn] at hs; cases hs
    · cases hcon
  | l :: r :: rest, st, level, hinv => by
    intro hcon
    simp only [combineLevel] at hcon
    split at hcon
    · rename_i e hc
      cases hcon
      rcases combineProofs_error_cases be zh st l (some r) level _ hc with h | ⟨hl, hn⟩
      · cases h
      · rcases hinv with h0 | hs
        · exact hl h0
        · rw [hn] at hs; cases hs
    · rename_i c st1 hc
      split at hcon
      · rename_i e hrest
        cases hcon
        exact combineLevel_ne_missing be zh rest st1 level
          (Or.inr (combineProofs_ok _ _ _ _ _ _ _ _ hc).2.1) hrest
      · cases hcon

theorem combineLevel_value_sum (be : SummaryBackend) (zh : List Nat) (level : Nat) :
    ∀ (l : List ProofArtifact) (st : TreeState) (next : List ProofArtifact)
      (st2 : TreeState),
      combineLevel be zh st level l = .ok (next, st2) →
      (next.map ProofArtifact.value).sum = (l.map ProofArtifact.value).sum
  | [], st, next, st2, h => by
    simp only [combineLevel] at h
    cases h
    rfl
  | [l], st, next, st2, h => by
    simp only [combineLevel] at h
    split at h
    · cases h
    · rename_i c st1 hc
      cases h
      have hval := (combineProofs_ok _ _ _ _ _ _ _ _ hc).1
      simp [hval]
  | l :: r :: rest, st, next, st2, h => by
    simp only [combineLevel] at h
    split at h
    · cases h
    · rename_i c st1 hc
      split at h
      · cases h
      · rename_i cs st3 hrest
        cases h
        have hval := (combineProofs_ok _ _ _ _ _ _ _ _ hc).1
        have hsum := combineLevel_value_sum be zh level rest st1 cs _ hrest
        simp [hval, hsum]
        omega

theorem buildTree_value_sum_aux (be : SummaryBackend) (zh : List Nat) :
    ∀ (n : Nat) (proofs : List ProofArtifact) (st : TreeState) (level : Nat)
      (a : ProofArtifact) (st2 : TreeState),
      proofs.length ≤ n → proofs ≠ [] →
      buildTree be zh st proofs level = .ok (a, st2) →
      a.value = (proofs.map ProofArtifact.value).sum := by
  intro n
  induction n with
  | zero =>
    intro proofs st level a st2 hlen hne _
    cases proofs with
    | nil => exact absurd rfl hne
    | cons x xs => simp at hlen
  | succ n ih =>
    intro proofs st level a st2 hlen hne hb
    unfold buildTree at hb
    split at hb
    · rename_i hle
      cases proofs with
      | nil => exact absurd rfl hne
      | cons x xs =>
        cases xs with
        | nil =>
          cases hb
          simp
        | cons y ys => simp at hle
    · rename_i hgt
      split at hb
      · cases hb
      · rename_i next st1 hcl
        have hlen2 := combineLevel_length be zh level proofs st next st1 hcl
        have hsum := combineLevel_value_sum be zh level proofs st next st1 hcl
        have hnext_ne : next ≠ [] := by
          have hpos : 0 < next.length := by
            rw [hlen2]
            simp only [not_le] at hgt
            omega
          exact List.ne_nil_of_length_pos hpos
        have hrec := ih next st1 (level + 1) a st2
          (by simp only [not_le] at hgt; omega) hnext_ne hb
        rw [hrec, hsum]

theorem buildTree_ne_missing_aux (be : SummaryBackend) (zh : List Nat) :
    ∀ (n : Nat) (proofs : List ProofArtifact) (st : TreeState) (level : Nat),
      proofs.length ≤ n →
      (level = 0 ∨ st.summaryVkAsFields.isSome) →
      buildTree be zh st proofs level ≠ .error .missingSummaryKey := by
  intro n
  induction n with
  | zero =>
    intro proofs st level hlen hinv hcon
    unfold buildTree at hcon
    split at hcon
    · cases hcon
    · rename_i hgt
      cases proofs with
      | nil => simp at hgt
      | cons x xs => simp at hlen
  | succ n ih =>
    intro proofs st level hlen hinv hcon
    unfold buildTree at hcon
    split at hcon
    · cases hcon
    · rename_i hgt
      split at hcon
      · rename_i e hcl
        cases hcon
        exact combineLevel_ne_missing be zh proofs st level hinv hcl
      · rename_i next st1 hcl
        have hlen2 := combineLevel_length be zh level proofs st next st1 hcl
        have hne : proofs ≠ [] := by
          intro hnil
          rw [hnil] at hgt
          simp at hgt
        have hsome := combineLevel_isSome be zh level proofs st next st1 hne hcl
        exact ih next st1 (level + 1)
          (by simp only [not_le] at hgt; omega) (Or.inr hsome.1) hcon

end ProofTree

namespace Claims

open ProofTree

/-- C1: every pairwise combination produces an artifact whose value is
the left child value plus the right child value, 0 standing in for an
absent right child; hence for every non-empty artifact list the final
artifact buildTree returns carries exactly the integer sum of the
per-leaf values. -/
theorem c1_buildTree_value_sum :
    (∀ (be : SummaryBackend) (zeroHashes : List Nat) (st : TreeState)
        (left : ProofArtifact) (right : Option ProofArtifact) (level : Nat)
        (c : ProofArtifact) (st2 : TreeState),
      combineProofs be zeroHashes st left right level = .ok (c, st2) →
      c.value = left.value + ((right.map ProofArtifact.value).getD 0)) ∧
    (∀ (be : SummaryBackend) (zeroHashes : List Nat) (st : TreeState)
        (proofs : List ProofArtifact) (a : ProofArtifact) (st2 : TreeState),
      proofs ≠ [] →
      buildTree be zeroHashes st proofs 0 = .ok (a, st2) →
      a.value = (proofs.map ProofArtifact.value).sum) := by
  constructor
  · intro be zh st left right level c st2 h
    exact (combineProofs_ok be zh st left right level c st2 h).1
  · intro be zh st proofs a st2 hne hb
    exact buildTree_value_sum_aux be zh proofs.length proofs st 0 a st2 (le_refl _) hne hb

/-- C9: in any run, buildTree starting at level 0 can never throw the
MissingSummaryKey error, whatever the initial vkey-cache state: the
first level-0 combination bootstraps the summary vkey cache before any
level at or above 1 is processed. -/
theorem c9_missing_summary_key_unreachable (be : SummaryBackend) (zeroHashes : List Nat)
    (st : TreeState) (proofs : List ProofArtifact) :
    buildTree be zeroHashes st proofs 0 ≠ .error .missingSummaryKey :=
  buildTree_ne_missing_aux be zeroHashes proofs.length proofs st 0 (le_refl _) (Or.inl rfl)

/-- A concrete summary backend for witnesses: the circuit always
returns zeros, proofs are empty and always verify. -/
def demoBackend : SummaryBackend := {
  execute := fun _ => (0, (0, 0, 0)),
  generateProof := fun _ => [],
  verifyProof := fun _ => true,
  generateRecursiveProofArtifacts := fun _ => ([], 0) }

/-- A fresh ProofTree instance state, all caches empty. -/
def demoState : TreeState := ⟨none, none, none, none⟩

/-- A concrete leaf artifact of value 7. -/
def demoArtifact : ProofArtifact := ⟨[1], [1], [3, 4, 5], 7⟩

/-- A concrete leaf artifact of value 4. -/
def demoArtifact2 : ProofArtifact := ⟨[2], [2], [6, 7, 8], 4⟩

/-- Witness for C1: a concrete pairwise combination of values 7 and 4
yields value 11, and a concrete one-leaf buildTree run returns the
leaf value. -/
theorem c1_buildTree_value_sum_witness :
    ((⟨[], [], [0, 0, 0], 11⟩ : ProofArtifact).value =
      demoArtifact.value + (((some demoArtifact2).map ProofArtifact.value).getD 0)) ∧
    (demoArtifact.value = ([demoArtifact].map ProofArtifact.value).sum) :=
  ⟨c1_buildTree_value_sum.1 demoBackend [] demoState demoArtifact (some demoArtifact2) 0
      ⟨[], [], [0, 0, 0], 11⟩ ⟨none, none, some [], some 0⟩ rfl,
   c1_buildTree_value_sum.2 demoBackend [] demoState [demoArtifact] demoArtifact demoState
      (by simp) (by rw [buildTree.eq_def]; rfl)⟩

/-- Witness for C9: a concrete two-leaf run cannot throw
MissingSummaryKey. -/
theorem c9_missing_summary_key_unreachable_witness :
    buildTree demoBackend [] demoState [demoArtifact, demoArtifact2] 0 ≠
      .error .missingSummaryKey :=
  c9_missing_summary_key_unreachable demoBackend [] demoState [demoArtifact, demoArtifact2]

end Claims
